import Mathlib

/-!
Verification of the gopool task-processing core: the `PriorityQueue`
Sourcer (backed by Go's `container/heap`), the `ManagedSource` goroutine,
and the `GoPool` worker loop.  Definitions are shallow embeddings of the
Go source: loops become fuel-indexed structural recursions (each loop has
a strictly decreasing measure, so the chosen fuel is always sufficient),
channels and goroutine interleavings become labelled transition
relations, and Go `int` is modelled by `Int` (no access in these
algorithms overflows for the list sizes representable here).
-/

namespace gopool

/-- A Task is a unit of work with a string identity (`fmt.Stringer`);
its `Run` method plays no role in the scheduling claims. -/
structure Task where
  name : String
deriving DecidableEq, Repr

/-- Go's internal `pt` struct: a task together with an integer priority;
this is the concrete `PriorityTask` implementation. -/
structure pt where
  p : Int
  t : Task
deriving DecidableEq, Repr

/-- A value of Go interface type `Task` either also implements
`PriorityTask` (the type assertion `t.(PriorityTask)` succeeds) or is a
bare task. -/
inductive GoTask
  | plain (t : Task)
  | withPriority (p : Int) (t : Task)
deriving DecidableEq, Repr

/-- `NewPriorityTask` returns a PriorityTask with the given task and
priority. -/
def NewPriorityTask (t : Task) (priority : Int) : pt := ⟨priority, t⟩

/-- Priority stored at index `i` of the backing array (0 if out of
range; all uses in the algorithms are in range). -/
def priAt (q : List pt) (i : Nat) : Int :=
  match q[i]? with
  | some x => x.p
  | none => 0

namespace pq

/-- `func (q pq) Less(i, j int) bool { return q[i].Priority() > q[j].Priority() }` -/
def Less (q : List pt) (i j : Nat) : Bool := priAt q i > priAt q j

/-- `func (q pq) Swap(i, j int)` — exchange two positions. -/
def Swap (q : List pt) (i j : Nat) : List pt :=
  match q[i]?, q[j]? with
  | some a, some b => (q.set i b).set j a
  | _, _ => q

/-- `func (q *pq) Push(x interface{})` — append at the end. -/
def Push (q : List pt) (x : pt) : List pt := q ++ [x]

/-- `func (q *pq) Pop() interface{}` — return the last element and
truncate. -/
def Pop (q : List pt) : Option pt × List pt :=
  (q[q.length - 1]?, q.take (q.length - 1))

end pq

namespace goheap

/-- The loop of `container/heap`'s `up`, fuelled: `j` strictly
decreases, so fuel `j+1` is enough. -/
def upF : Nat → List pt → Nat → List pt
  | 0, q, _ => q
  | fuel+1, q, j =>
    let i := (j - 1) / 2
    if i = j ∨ pq.Less q j i = false then q
    else upF fuel (pq.Swap q i j) i

/-- `func up(h Interface, j int)`. -/
def up (q : List pt) (j : Nat) : List pt := upF (j + 1) q j

/-- The loop of `container/heap`'s `down`, fuelled: `i` strictly
increases below `n`, so fuel `n+1` is enough. -/
def downF : Nat → List pt → Nat → Nat → List pt
  | 0, q, _, _ => q
  | fuel+1, q, i, n =>
    if n ≤ 2 * i + 1 then q
    else
      let j := if 2 * i + 2 < n ∧ pq.Less q (2 * i + 2) (2 * i + 1) = true
        then 2 * i + 2 else 2 * i + 1
      if pq.Less q j i = false then q
      else downF fuel (pq.Swap q i j) j n

/-- `func down(h Interface, i0, n int)` (boolean result unused by `Push`/`Pop`). -/
def down (q : List pt) (i n : Nat) : List pt := downF (n + 1) q i n

/-- `heap.Push`: append, then sift up from the last index. -/
def Push (q : List pt) (x : pt) : List pt :=
  up (pq.Push q x) ((pq.Push q x).length - 1)

/-- `heap.Pop`: swap root with the last element, sift the new root down
within the first `n` positions, then remove and return the last
element. -/
def Pop (q : List pt) : Option pt × List pt :=
  let n := q.length - 1
  pq.Pop (down (pq.Swap q 0 n) 0 n)

end goheap

namespace PriorityQueue

/-- `func (q *PriorityQueue) Next() Task` — nil when the heap is empty,
otherwise `heap.Pop`. -/
def Next (q : List pt) : Option pt × List pt :=
  if q.length < 1 then (none, q) else goheap.Pop q

/-- `func (q *PriorityQueue) Add(t Task)` — heap-push the task, wrapping
it via `NewPriorityTask(t, 0)` when the `t.(PriorityTask)` assertion
fails. -/
def Add (q : List pt) (t : GoTask) : List pt :=
  match t with
  | .withPriority p tk => goheap.Push q ⟨p, tk⟩
  | .plain tk => goheap.Push q (NewPriorityTask tk 0)

end PriorityQueue

/-- `NewPriorityQueue` starts from an empty backing array
(`heap.Init` on an empty slice is a no-op). -/
def NewPriorityQueue : List pt := []

/-- Drain the queue by repeated `Next` until it reports no work; each
successful `Next` shortens the array by one, so fuel `q.length` is
exact. -/
def drainF : Nat → List pt → List pt
  | 0, _ => []
  | fuel+1, q =>
    match PriorityQueue.Next q with
    | (none, _) => []
    | (some x, q') => x :: drainF fuel q'

/-- Repeatedly call `Next` and collect the returned tasks. -/
def drain (q : List pt) : List pt := drainF q.length q

/-- One externally invocable operation on a `PriorityQueue`. -/
inductive QOp
  | add (t : GoTask)
  | next
deriving DecidableEq, Repr

/-- Apply one operation to the backing array (the state a `Next`/`Add`
call leaves behind). -/
def applyOp (q : List pt) : QOp → List pt
  | .add t => PriorityQueue.Add q t
  | .next => (PriorityQueue.Next q).2

/-- The backing array after a sequence of operations on a newly
constructed queue. -/
def runOps (ops : List QOp) : List pt :=
  ops.foldl applyOp NewPriorityQueue

/-- The binary max-heap property of the backing array: every element is
`≤` its parent at index `(j-1)/2`. -/
def IsHeap (q : List pt) : Prop :=
  ∀ j, j < q.length → 0 < j → priAt q ((j - 1) / 2) ≥ priAt q j

/-- The heap property restricted to the first `n` positions (the region
`down` operates on during `heap.Pop`). -/
def IsHeapBelow (q : List pt) (n : Nat) : Prop :=
  ∀ k, k < n → 0 < k → priAt q ((k - 1) / 2) ≥ priAt q k

/-- Loop invariant of `up` at cursor `j`: every parent/child edge holds
except possibly the one into `j`, and the parent of `j` already
dominates the children of `j`. -/
def UpInv (q : List pt) (j : Nat) : Prop :=
  (∀ k, k < q.length → 0 < k → k ≠ j → priAt q ((k - 1) / 2) ≥ priAt q k) ∧
  (0 < j → ∀ k, k < q.length → 0 < k → (k - 1) / 2 = j →
    priAt q ((j - 1) / 2) ≥ priAt q k)

/-- Loop invariant of `down` at cursor `i` within bound `n`: every edge
below `n` holds except possibly those out of `i`, and the parent of `i`
already dominates the children of `i`. -/
def DownInv (q : List pt) (i n : Nat) : Prop :=
  (∀ k, k < n → 0 < k → (k - 1) / 2 ≠ i → priAt q ((k - 1) / 2) ≥ priAt q k) ∧
  (0 < i → ∀ k, k < n → 0 < k → (k - 1) / 2 = i →
    priAt q ((i - 1) / 2) ≥ priAt q k)

/-!
### ManagedSource (src/unnamed/part_007, `NewManagedSource`)

The goroutine is a labelled transition system.  One loop iteration is a
`refill` step (the loop head: `if top == nil { top = s.Next() }`)
followed by one `select` branch; the program counter records which of
the two program points the thread is at.  Channel readiness is chosen
by the environment, so a branch step exists exactly when Go's `select`
could commit that branch.
-/

/-- The `Sourcer` interface: `Next` returns the next task (nil when no
work) and `Add` schedules a task.  The state type `σ` is the
implementation's private state. -/
structure Sourcer (σ : Type) where
  next : σ → Option Task × σ
  add : σ → Task → σ

/-- Program counter of the managed-source goroutine. -/
inductive MPc
  | head
  | sel
deriving DecidableEq, Repr

/-- State of a `ManagedSource`: the owned Sourcer state, the
pending-delivery slot (`var top Task`), whether the wakeup and add
channels are still selected on (`wakeup = nil` / `add = nil` after
closure), the program counter, whether the goroutine is still running,
and the `sync.WaitGroup` counter (`wg.Add(1)` before the goroutine
starts). -/
structure MState (σ : Type) where
  s : σ
  top : Option Task
  wake : Bool
  addOpen : Bool
  pc : MPc
  running : Bool
  wg : Nat

/-- Observable events of one managed-source step.  A `nil` task
received on the add channel is `addNil` (Go delivers the zero value
both for an explicit nil send and, with `ok = false`, on closure). -/
inductive MEvent
  | refill
  | wakeSignal
  | wakeClosed
  | addRecv (t : Task)
  | addNil
  | addClosed
  | cancel
  | deliver (t : Task)
deriving DecidableEq, Repr

/-- One step of the `NewManagedSource` goroutine. -/
inductive MStep {σ : Type} (S : Sourcer σ) : MState σ → MEvent → MState σ → Prop
  | refill_empty (st : MState σ) (t? : Option Task) (s' : σ) :
      st.running = true → st.pc = .head → st.top = none →
      S.next st.s = (t?, s') →
      MStep S st .refill { st with s := s', top := t?, pc := .sel }
  | refill_keep (st : MState σ) (t : Task) :
      st.running = true → st.pc = .head → st.top = some t →
      MStep S st .refill { st with pc := .sel }
  | wakeSignal (st : MState σ) :
      st.running = true → st.pc = .sel → st.wake = true →
      MStep S st .wakeSignal { st with pc := .head }
  | wakeClosed (st : MState σ) :
      st.running = true → st.pc = .sel → st.wake = true →
      MStep S st .wakeClosed { st with wake := false, pc := .head }
  | addRecv (st : MState σ) (t : Task) :
      st.running = true → st.pc = .sel → st.addOpen = true →
      MStep S st (.addRecv t) { st with s := S.add st.s t, pc := .head }
  | addNil (st : MState σ) :
      st.running = true → st.pc = .sel → st.addOpen = true →
      MStep S st .addNil { st with pc := .head }
  | addClosed (st : MState σ) :
      st.running = true → st.pc = .sel → st.addOpen = true →
      MStep S st .addClosed { st with addOpen := false, pc := .head }
  | cancel (st : MState σ) :
      st.running = true → st.pc = .sel →
      MStep S st .cancel
        { st with
          s := match st.top with | some t => S.add st.s t | none => st.s,
          top := none, running := false, wg := st.wg - 1 }
  | deliver (st : MState σ) (t : Task) :
      st.running = true → st.pc = .sel → st.top = some t →
      MStep S st (.deliver t) { st with top := none, pc := .head }

/-- The state `NewManagedSource` starts its goroutine in. -/
def MInit {σ : Type} (s0 : σ) (w0 : Bool) : MState σ :=
  { s := s0, top := none, wake := w0, addOpen := true, pc := .head,
    running := true, wg := 1 }

/-- Reachability, recording the trace of events. -/
inductive MReach {σ : Type} (S : Sourcer σ) :
    MState σ → List MEvent → MState σ → Prop
  | refl (st : MState σ) : MReach S st [] st
  | step (st₀ : MState σ) (es : List MEvent) (st₁ : MState σ) (e : MEvent)
      (st₂ : MState σ) : MReach S st₀ es st₁ → MStep S st₁ e st₂ →
      MReach S st₀ (es ++ [e]) st₂

/-- Multiset of tasks submitted on the add channel during a trace. -/
def eventAdded : MEvent → Multiset Task
  | .addRecv t => {t}
  | _ => 0

/-- Multiset of tasks delivered on the source channel during a trace. -/
def eventDelivered : MEvent → Multiset Task
  | .deliver t => {t}
  | _ => 0

/-- All tasks submitted on the add channel during a trace. -/
def addedTasks (es : List MEvent) : Multiset Task :=
  (es.map eventAdded).sum

/-- All tasks delivered on the source channel during a trace. -/
def deliveredTasks (es : List MEvent) : Multiset Task :=
  (es.map eventDelivered).sum

/-- The pending-delivery slot as a multiset. -/
def slotM : Option Task → Multiset Task
  | none => 0
  | some t => {t}

/-- A reference `Sourcer` over a plain list (used to instantiate the
abstract theorems): `Next` pops the head, `Add` prepends. -/
def listSourcer : Sourcer (List Task) where
  next s := match s with
    | [] => (none, [])
    | t :: ts => (some t, ts)
  add s t := t :: s

/-- The multiset of tasks a `listSourcer` state holds. -/
def listTasks (s : List Task) : Multiset Task := (s : Multiset Task)

/-- A concrete managed-source state blocked in `select` with the wakeup
branch still active (used to instantiate the abstract theorems). -/
def msA : MState (List Task) :=
  { s := [], top := none, wake := true, addOpen := true, pc := .sel,
    running := true, wg := 1 }

/-- `msA` after its wakeup channel is closed. -/
def msB : MState (List Task) :=
  { s := [], top := none, wake := false, addOpen := true, pc := .head,
    running := true, wg := 1 }

/-- A concrete managed-source state blocked in `select` with the wakeup
branch already disabled. -/
def msC : MState (List Task) :=
  { s := [], top := none, wake := false, addOpen := true, pc := .sel,
    running := true, wg := 1 }

/-!
### GoPool (src/gopool/gopool.go)

`New` starts `goroutines` workers and only then runs
`p.wg.Add(goroutines)`; each worker selects between `ctx.Done()` and
the task channel, runs a received task synchronously, and calls
`p.wg.Done()` before returning.  Go's `select` picks uniformly among
ready branches, so a worker whose channel has a ready task may take it
even when `ctx.Done()` is also ready.  `sync.WaitGroup` panics when the
counter goes negative (`Done` before `Add`), which aborts the process:
no step is possible from a panicked state.
-/

/-- Status of one worker goroutine. -/
inductive WStatus
  | idle
  | running (t : Task)
  | done
deriving DecidableEq, Repr

/-- Interleaved state of `New`/`worker`/`Wait` plus the environment
(the cancellation signal, the inbound channel and its producers). -/
structure PState where
  cancelled : Bool
  srcClosed : Bool
  pending : List Task
  workers : List WStatus
  wgAdded : Bool
  wg : Int
  panicked : Bool
  waiting : Bool
  waitReturned : Bool
  runDone : List Task
  closedLogs : List Nat

/-- Events of the pool transition system. -/
inductive PEvent
  | wgAdd
  | fireCancel
  | closeSrc
  | send (t : Task)
  | recv (i : Nat) (t : Task)
  | finish (i : Nat) (t : Task)
  | observeCancel (i : Nat)
  | observeClosed (i : Nat)
  | waitCall
  | waitReturn
deriving DecidableEq, Repr

/-- One interleaving step of the pool.  `recv` deliberately does not
require `cancelled = false`: Go's `select` chooses among all ready
branches. -/
inductive PStep : PState → PEvent → PState → Prop
  | wgAdd (st : PState) :
      st.panicked = false → st.wgAdded = false →
      PStep st .wgAdd
        { st with
          wgAdded := true, wg := st.wg + st.workers.length }
  | fireCancel (st : PState) :
      st.panicked = false → st.cancelled = false →
      PStep st .fireCancel { st with cancelled := true }
  | closeSrc (st : PState) :
      st.panicked = false → st.srcClosed = false →
      PStep st .closeSrc { st with srcClosed := true }
  | send (st : PState) (t : Task) :
      st.panicked = false → st.srcClosed = false →
      PStep st (.send t) { st with pending := st.pending ++ [t] }
  | recv (st : PState) (i : Nat) (t : Task) (rest : List Task) :
      st.panicked = false → st.workers[i]? = some .idle →
      st.pending = t :: rest →
      PStep st (.recv i t)
        { st with
          workers := st.workers.set i (.running t), pending := rest }
  | finish (st : PState) (i : Nat) (t : Task) :
      st.panicked = false → st.workers[i]? = some (.running t) →
      PStep st (.finish i t)
        { st with
          workers := st.workers.set i .idle,
          runDone := st.runDone ++ [t] }
  | observeCancel (st : PState) (i : Nat) :
      st.panicked = false → st.workers[i]? = some .idle →
      st.cancelled = true →
      PStep st (.observeCancel i)
        { st with
          workers := st.workers.set i .done, wg := st.wg - 1,
          panicked := decide (st.wg - 1 < 0) }
  | observeClosed (st : PState) (i : Nat) :
      st.panicked = false → st.workers[i]? = some .idle →
      st.srcClosed = true → st.pending = [] →
      PStep st (.observeClosed i)
        { st with
          workers := st.workers.set i .done, wg := st.wg - 1,
          panicked := decide (st.wg - 1 < 0),
          closedLogs := st.closedLogs ++ [i] }
  | waitCall (st : PState) :
      st.panicked = false → st.wgAdded = true → st.waiting = false →
      PStep st .waitCall { st with waiting := true }
  | waitReturn (st : PState) :
      st.panicked = false → st.waiting = true → st.wg = 0 →
      PStep st .waitReturn { st with waitReturned := true }

/-- The state right after `New(name, w, verbose, ctx, src)` has spawned
its workers but before any of them (or `wg.Add`) has run. -/
def PInit (w : Nat) : PState :=
  { cancelled := false, srcClosed := false, pending := [],
    workers := List.replicate w .idle, wgAdded := false, wg := 0,
    panicked := false, waiting := false, waitReturned := false,
    runDone := [], closedLogs := [] }

/-- Reachability for the pool system. -/
inductive PReach : PState → List PEvent → PState → Prop
  | refl (st : PState) : PReach st [] st
  | step (st₀ : PState) (es : List PEvent) (st₁ : PState) (e : PEvent)
      (st₂ : PState) : PReach st₀ es st₁ → PStep st₁ e st₂ →
      PReach st₀ (es ++ [e]) st₂

/-- `PInit 1` after the cancellation signal has fired: the single
worker is still idle and `wg.Add(1)` has not yet executed. -/
def pCancelled : PState := { PInit 1 with cancelled := true }

/-- `pCancelled` after the worker observes cancellation and calls
`wg.Done()` before `New`'s `wg.Add(1)` has run: the WaitGroup counter
is negative and the process has panicked. -/
def pBad : PState :=
  { PInit 1 with
    cancelled := true, workers := [.done], wg := -1, panicked := true }

/-- A one-worker pool after `wg.Add`, with the cancellation signal
fired and one task ready on the inbound point. -/
def pRace : PState :=
  { PInit 1 with
    cancelled := true, wgAdded := true, wg := 1, pending := [⟨"t"⟩] }

/-- `pRace` after the worker observes cancellation instead of taking
the task. -/
def pRaceStopped : PState :=
  { pRace with workers := [.done], wg := 0 }

/-- A one-worker pool after `wg.Add` whose inbound point has been
closed. -/
def pClosed : PState :=
  { PInit 1 with srcClosed := true, wgAdded := true, wg := 1 }

/-- `pClosed` after the worker observes the closure, logs it and
stops. -/
def pClosedStopped : PState :=
  { pClosed with workers := [.done], wg := 0, closedLogs := [0] }

/-! ### Basic facts about `pq.Swap` and `priAt` -/

theorem pq.Swap_eq_self {q : List pt} {i j : Nat}
    (h : q.length ≤ i ∨ q.length ≤ j) : pq.Swap q i j = q := by
  rcases h with h | h
  · simp [pq.Swap, List.getElem?_eq_none h]
  · rw [pq.Swap]
    rcases hi : q[i]? with _ | a
    · rfl
    · simp [List.getElem?_eq_none h]

theorem pq.length_Swap (q : List pt) (i j : Nat) :
    (pq.Swap q i j).length = q.length := by
  rw [pq.Swap]
  rcases hi : q[i]? with _ | a <;> rcases hj : q[j]? with _ | b <;> simp

theorem pq.getElem?_Swap_fst {q : List pt} {i j : Nat}
    (hi : i < q.length) (hj : j < q.length) :
    (pq.Swap q i j)[i]? = q[j]? := by
  have hqi : q[i]? = some q[i] := List.getElem?_eq_getElem hi
  have hqj : q[j]? = some q[j] := List.getElem?_eq_getElem hj
  rw [pq.Swap, hqi, hqj]
  by_cases hij : i = j
  · subst hij
    rw [List.getElem?_set_self (by simpa using hi)]
  · rw [List.getElem?_set_ne (fun h => hij h.symm),
      List.getElem?_set_self (by simpa using hi)]

theorem pq.getElem?_Swap_snd {q : List pt} {i j : Nat}
    (hi : i < q.length) (hj : j < q.length) :
    (pq.Swap q i j)[j]? = q[i]? := by
  have hqi : q[i]? = some q[i] := List.getElem?_eq_getElem hi
  have hqj : q[j]? = some q[j] := List.getElem?_eq_getElem hj
  rw [pq.Swap, hqi, hqj, List.getElem?_set_self (by simpa using hj)]

theorem pq.getElem?_Swap_other {q : List pt} (i j : Nat) {k : Nat}
    (hki : k ≠ i) (hkj : k ≠ j) :
    (pq.Swap q i j)[k]? = q[k]? := by
  rw [pq.Swap]
  rcases hi : q[i]? with _ | a
  · rfl
  rcases hj : q[j]? with _ | b
  · rfl
  rw [List.getElem?_set_ne (fun h => hkj h.symm),
    List.getElem?_set_ne (fun h => hki h.symm)]

theorem priAt_Swap_fst {q : List pt} {i j : Nat}
    (hi : i < q.length) (hj : j < q.length) :
    priAt (pq.Swap q i j) i = priAt q j := by
  rw [priAt, priAt, pq.getElem?_Swap_fst hi hj]

theorem priAt_Swap_snd {q : List pt} {i j : Nat}
    (hi : i < q.length) (hj : j < q.length) :
    priAt (pq.Swap q i j) j = priAt q i := by
  rw [priAt, priAt, pq.getElem?_Swap_snd hi hj]

theorem priAt_Swap_other {q : List pt} (i j : Nat) {k : Nat}
    (hki : k ≠ i) (hkj : k ≠ j) :
    priAt (pq.Swap q i j) k = priAt q k := by
  rw [priAt, priAt, pq.getElem?_Swap_other i j hki hkj]

theorem priAt_Swap_cases (q : List pt) (i j k : Nat) :
    priAt (pq.Swap q i j) k = priAt q k ∨ priAt (pq.Swap q i j) k = priAt q i ∨
      priAt (pq.Swap q i j) k = priAt q j := by
  by_cases hi : i < q.length
  · by_cases hj : j < q.length
    · by_cases hki : k = i
      · subst hki; right; right; exact priAt_Swap_fst hi hj
      · by_cases hkj : k = j
        · subst hkj; right; left; exact priAt_Swap_snd hi hj
        · exact Or.inl (priAt_Swap_other i j hki hkj)
    · rw [pq.Swap_eq_self (Or.inr (by omega))]; exact Or.inl rfl
  · rw [pq.Swap_eq_self (Or.inl (by omega))]; exact Or.inl rfl

theorem priAt_append_left {q : List pt} {k : Nat} (r : List pt)
    (h : k < q.length) : priAt (q ++ r) k = priAt q k := by
  rw [priAt, priAt, List.getElem?_append_left h]

theorem priAt_concat_length (q : List pt) (x : pt) :
    priAt (q ++ [x]) q.length = x.p := by
  rw [priAt, List.getElem?_concat_length]

theorem priAt_take {q : List pt} {k n : Nat} (h : k < n) :
    priAt (q.take n) k = priAt q k := by
  rw [priAt, priAt, List.getElem?_take_of_lt h]

theorem less_true_iff {q : List pt} {i j : Nat} :
    pq.Less q i j = true ↔ priAt q i > priAt q j := by
  simp [pq.Less]

theorem less_false_iff {q : List pt} {i j : Nat} :
    pq.Less q i j = false ↔ priAt q i ≤ priAt q j := by
  simp [pq.Less]

/-! ### `up` establishes the heap property from `UpInv` -/

theorem goheap.upF_isHeap :
    ∀ fuel j q, j < fuel → j < q.length → UpInv q j →
      IsHeap (goheap.upF fuel q j) := by
  intro fuel
  induction fuel with
  | zero => intro j q hj; omega
  | succ f ih =>
    intro j q hfj hlen hinv
    rw [goheap.upF]
    by_cases hc : (j - 1) / 2 = j ∨ pq.Less q j ((j - 1) / 2) = false
    · rw [if_pos hc]
      intro k hk hk0
      by_cases hkj : k = j
      · subst hkj
        rcases hc with hc | hc
        · omega
        · exact less_false_iff.mp hc
      · exact hinv.1 k hk hk0 hkj
    · rw [if_neg hc]
      push_neg at hc
      obtain ⟨hij, hless⟩ := hc
      have hless' : priAt q j > priAt q ((j - 1) / 2) :=
        less_true_iff.mp (Bool.ne_false_iff.mp hless)
      have hj0 : 0 < j := by omega
      have hilt : (j - 1) / 2 < j := by omega
      have hilen : (j - 1) / 2 < q.length := lt_trans hilt hlen
      apply ih ((j - 1) / 2) (pq.Swap q ((j - 1) / 2) j) (by omega)
        (by rw [pq.length_Swap]; omega)
      constructor
      · intro k hk hk0 hki
        rw [pq.length_Swap] at hk
        by_cases hkj : k = j
        · subst hkj
          rw [priAt_Swap_fst hilen hlen, priAt_Swap_snd hilen hlen]
          exact le_of_lt hless'
        · have hpk_lt : (k - 1) / 2 < k := by omega
          by_cases hpki : (k - 1) / 2 = (j - 1) / 2
          · rw [hpki, priAt_Swap_fst hilen hlen, priAt_Swap_other _ _ hki hkj]
            have h1 : priAt q ((k - 1) / 2) ≥ priAt q k := hinv.1 k hk hk0 hkj
            rw [hpki] at h1
            exact le_trans h1 (le_of_lt hless')
          · by_cases hpkj : (k - 1) / 2 = j
            · rw [hpkj, priAt_Swap_snd hilen hlen, priAt_Swap_other _ _ hki hkj]
              have h2 := hinv.2 hj0 k hk hk0 hpkj
              exact h2
            · rw [priAt_Swap_other _ _ hpki hpkj, priAt_Swap_other _ _ hki hkj]
              exact hinv.1 k hk hk0 hkj
      · intro hi0 k hk hk0 hpk
        rw [pq.length_Swap] at hk
        have hglt : ((j - 1) / 2 - 1) / 2 < (j - 1) / 2 := by omega
        have hgi : ((j - 1) / 2 - 1) / 2 ≠ (j - 1) / 2 := by omega
        have hgj : ((j - 1) / 2 - 1) / 2 ≠ j := by omega
        rw [priAt_Swap_other _ _ hgi hgj]
        have hparent : priAt q (((j - 1) / 2 - 1) / 2) ≥ priAt q ((j - 1) / 2) :=
          hinv.1 ((j - 1) / 2) hilen hi0 (by omega)
        by_cases hkj : k = j
        · subst hkj
          rw [priAt_Swap_snd hilen hlen]
          exact hparent
        · have hki : k ≠ (j - 1) / 2 := by omega
          rw [priAt_Swap_other _ _ hki hkj]
          have h1 : priAt q ((k - 1) / 2) ≥ priAt q k := hinv.1 k hk hk0 hkj
          rw [hpk] at h1
          exact le_trans h1 hparent

theorem goheap.Push_isHeap (q : List pt) (x : pt) (h : IsHeap q) :
    IsHeap (goheap.Push q x) := by
  rw [goheap.Push, goheap.up]
  have hlen : (pq.Push q x).length = q.length + 1 := by simp [pq.Push]
  rw [hlen]
  have he : q.length + 1 - 1 = q.length := by omega
  rw [he]
  apply goheap.upF_isHeap (q.length + 1) q.length (pq.Push q x) (by omega)
    (by omega)
  constructor
  · intro k hk hk0 hkj
    rw [hlen] at hk
    have hklt : k < q.length := by omega
    have hpklt : (k - 1) / 2 < q.length := by omega
    rw [pq.Push, priAt_append_left _ hpklt, priAt_append_left _ hklt]
    exact h k hklt hk0
  · intro hj0 k hk hk0 hpk
    rw [hlen] at hk
    omega

/-! ### `down` establishes the heap property below `n` from `DownInv` -/

theorem goheap.downF_succ (fuel : Nat) (q : List pt) (i n : Nat) :
    goheap.downF (fuel + 1) q i n =
      if n ≤ 2 * i + 1 then q
      else if 2 * i + 2 < n ∧ pq.Less q (2 * i + 2) (2 * i + 1) = true then
        (if pq.Less q (2 * i + 2) i = false then q
          else goheap.downF fuel (pq.Swap q i (2 * i + 2)) (2 * i + 2) n)
      else
        (if pq.Less q (2 * i + 1) i = false then q
          else goheap.downF fuel (pq.Swap q i (2 * i + 1)) (2 * i + 1) n) := by
  rw [goheap.downF]
  by_cases h1 : n ≤ 2 * i + 1
  · simp [h1]
  · by_cases h2 : 2 * i + 2 < n ∧ pq.Less q (2 * i + 2) (2 * i + 1) = true
    · simp [h1, h2]
    · simp [h1, h2]

theorem goheap.upF_length : ∀ fuel q j, (goheap.upF fuel q j).length = q.length := by
  intro fuel
  induction fuel with
  | zero => intro q j; rfl
  | succ f ih =>
    intro q j
    rw [goheap.upF]
    by_cases hc : (j - 1) / 2 = j ∨ pq.Less q j ((j - 1) / 2) = false
    · rw [if_pos hc]
    · rw [if_neg hc, ih, pq.length_Swap]

theorem goheap.downF_length :
    ∀ fuel q i n, (goheap.downF fuel q i n).length = q.length := by
  intro fuel
  induction fuel with
  | zero => intro q i n; rfl
  | succ f ih =>
    intro q i n
    rw [goheap.downF_succ]
    split_ifs <;> first | rfl | rw [ih, pq.length_Swap]

theorem goheap.downF_getElem?_high :
    ∀ fuel q i n k, n ≤ k → (goheap.downF fuel q i n)[k]? = q[k]? := by
  intro fuel
  induction fuel with
  | zero => intro q i n k _; rfl
  | succ f ih =>
    intro q i n k hk
    rw [goheap.downF_succ]
    split_ifs with h1 h2 h3 h4
    · rfl
    · rfl
    · rw [ih _ _ _ _ hk, pq.getElem?_Swap_other _ _ (by omega) (by omega)]
    · rfl
    · rw [ih _ _ _ _ hk, pq.getElem?_Swap_other _ _ (by omega) (by omega)]

theorem goheap.downF_bound :
    ∀ fuel q i n (B : Int), (∀ k, k < n → priAt q k ≤ B) →
      ∀ k, k < n → priAt (goheap.downF fuel q i n) k ≤ B := by
  intro fuel
  induction fuel with
  | zero => intro q i n B hB k hk; exact hB k hk
  | succ f ih =>
    intro q i n B hB k hk
    rw [goheap.downF_succ]
    split_ifs with h1 h2 h3 h4
    · exact hB k hk
    · exact hB k hk
    · refine ih _ _ _ _ ?_ k hk
      intro m hm
      rcases priAt_Swap_cases q i (2 * i + 2) m with hc | hc | hc <;> rw [hc]
      · exact hB m hm
      · exact hB i (by omega)
      · exact hB (2 * i + 2) (by omega)
    · exact hB k hk
    · refine ih _ _ _ _ ?_ k hk
      intro m hm
      rcases priAt_Swap_cases q i (2 * i + 1) m with hc | hc | hc <;> rw [hc]
      · exact hB m hm
      · exact hB i (by omega)
      · exact hB (2 * i + 1) (by omega)

theorem goheap.downF_isHeapBelow :
    ∀ fuel q i n, n ≤ q.length → n - i ≤ fuel → DownInv q i n →
      IsHeapBelow (goheap.downF fuel q i n) n := by
  intro fuel
  induction fuel with
  | zero =>
    intro q i n hn hfuel hinv k hk hk0
    exact hinv.1 k hk hk0 (by omega)
  | succ f ih =>
    intro q i n hn hfuel hinv
    rw [goheap.downF_succ]
    split_ifs with h1 h2 h3 h4
    · intro k hk hk0
      by_cases hpki : (k - 1) / 2 = i
      · omega
      · exact hinv.1 k hk hk0 hpki
    · intro k hk hk0
      by_cases hpki : (k - 1) / 2 = i
      · have hqij : priAt q (2 * i + 2) ≤ priAt q i := less_false_iff.mp h3
        have hchild : priAt q (2 * i + 2) > priAt q (2 * i + 1) :=
          less_true_iff.mp h2.2
        have hk' : k = 2 * i + 1 ∨ k = 2 * i + 2 := by omega
        rw [hpki]
        rcases hk' with hk' | hk' <;> subst hk' <;> linarith
      · exact hinv.1 k hk hk0 hpki
    · -- recurse with j = 2*i+2 (the larger child)
      have hiltn : i < n := by omega
      have hjltn : 2 * i + 2 < n := h2.1
      have hi_len : i < q.length := by omega
      have hj_len : 2 * i + 2 < q.length := by omega
      have hless : priAt q (2 * i + 2) > priAt q i :=
        less_true_iff.mp (Bool.ne_false_iff.mp h3)
      have hchild : priAt q (2 * i + 2) > priAt q (2 * i + 1) :=
        less_true_iff.mp h2.2
      apply ih (pq.Swap q i (2 * i + 2)) (2 * i + 2) n
        (by rw [pq.length_Swap]; exact hn) (by omega)
      constructor
      · intro k hk hk0 hpkj
        by_cases hkj : k = 2 * i + 2
        · subst hkj
          have hpj : (2 * i + 2 - 1) / 2 = i := by omega
          rw [hpj, priAt_Swap_fst hi_len hj_len, priAt_Swap_snd hi_len hj_len]
          linarith
        · by_cases hki : k = i
          · rw [hki] at hk0 ⊢
            have hgi : (i - 1) / 2 ≠ i := by omega
            have hgj : (i - 1) / 2 ≠ 2 * i + 2 := by omega
            rw [priAt_Swap_other _ _ hgi hgj, priAt_Swap_fst hi_len hj_len]
            exact hinv.2 hk0 (2 * i + 2) hjltn (by omega) (by omega)
          · by_cases hpki : (k - 1) / 2 = i
            · have hk21 : k = 2 * i + 1 := by omega
              rw [hpki, priAt_Swap_fst hi_len hj_len,
                priAt_Swap_other _ _ hki hkj]
              subst hk21; linarith
            · rw [priAt_Swap_other _ _ hpki hpkj,
                priAt_Swap_other _ _ hki hkj]
              exact hinv.1 k hk hk0 hpki
      · intro hj0 k hk hk0 hpk
        have hpj : (2 * i + 2 - 1) / 2 = i := by omega
        rw [hpj, priAt_Swap_fst hi_len hj_len]
        have hki : k ≠ i := by omega
        have hkj : k ≠ 2 * i + 2 := by omega
        rw [priAt_Swap_other _ _ hki hkj]
        have h5 := hinv.1 k hk hk0 (by omega)
        rw [hpk] at h5
        exact h5
    · intro k hk hk0
      by_cases hpki : (k - 1) / 2 = i
      · have hqij : priAt q (2 * i + 1) ≤ priAt q i := less_false_iff.mp h4
        have hk' : k = 2 * i + 1 ∨ k = 2 * i + 2 := by omega
        rw [hpki]
        rcases hk' with hk' | hk'
        · subst hk'; linarith
        · subst hk'
          have h2' : priAt q (2 * i + 2) ≤ priAt q (2 * i + 1) := by
            rcases Bool.eq_false_or_eq_true (pq.Less q (2 * i + 2) (2 * i + 1))
              with hb | hb
            · exact absurd ⟨hk, hb⟩ h2
            · exact less_false_iff.mp hb
          linarith
      · exact hinv.1 k hk hk0 hpki
    · -- recurse with j = 2*i+1 (left child is the larger one, or only child)
      have hiltn : i < n := by omega
      have hjltn : 2 * i + 1 < n := by omega
      have hi_len : i < q.length := by omega
      have hj_len : 2 * i + 1 < q.length := by omega
      have hless : priAt q (2 * i + 1) > priAt q i :=
        less_true_iff.mp (Bool.ne_false_iff.mp h4)
      apply ih (pq.Swap q i (2 * i + 1)) (2 * i + 1) n
        (by rw [pq.length_Swap]; exact hn) (by omega)
      constructor
      · intro k hk hk0 hpkj
        by_cases hkj : k = 2 * i + 1
        · subst hkj
          have hpj : (2 * i + 1 - 1) / 2 = i := by omega
          rw [hpj, priAt_Swap_fst hi_len hj_len, priAt_Swap_snd hi_len hj_len]
          linarith
        · by_cases hki : k = i
          · rw [hki] at hk0 ⊢
            have hgi : (i - 1) / 2 ≠ i := by omega
            have hgj : (i - 1) / 2 ≠ 2 * i + 1 := by omega
            rw [priAt_Swap_other _ _ hgi hgj, priAt_Swap_fst hi_len hj_len]
            exact hinv.2 hk0 (2 * i + 1) hjltn (by omega) (by omega)
          · by_cases hpki : (k - 1) / 2 = i
            · have hk22 : k = 2 * i + 2 := by omega
              rw [hpki, priAt_Swap_fst hi_len hj_len,
                priAt_Swap_other _ _ hki hkj]
              subst hk22
              have h2' : priAt q (2 * i + 2) ≤ priAt q (2 * i + 1) := by
                rcases Bool.eq_false_or_eq_true
                  (pq.Less q (2 * i + 2) (2 * i + 1)) with hb | hb
                · exact absurd ⟨hk, hb⟩ h2
                · exact less_false_iff.mp hb
              linarith
            · rw [priAt_Swap_other _ _ hpki hpkj,
                priAt_Swap_other _ _ hki hkj]
              exact hinv.1 k hk hk0 hpki
      · intro hj0 k hk hk0 hpk
        have hpj : (2 * i + 1 - 1) / 2 = i := by omega
        rw [hpj, priAt_Swap_fst hi_len hj_len]
        have hki : k ≠ i := by omega
        have hkj : k ≠ 2 * i + 1 := by omega
        rw [priAt_Swap_other _ _ hki hkj]
        have h5 := hinv.1 k hk hk0 (by omega)
        rw [hpk] at h5
        exact h5

/-! ### `Pop`/`Next` facts: root is the maximum, heap is preserved -/

theorem IsHeap.root_max {q : List pt} (h : IsHeap q) :
    ∀ k, k < q.length → priAt q k ≤ priAt q 0 := by
  intro k
  induction k using Nat.strong_induction_on with
  | _ k ih =>
    intro hk
    rcases Nat.eq_zero_or_pos k with hk0 | hk0
    · subst hk0; exact le_refl _
    · have h1 := h k hk hk0
      have h2 := ih ((k - 1) / 2) (by omega) (by omega)
      linarith

theorem PriorityQueue.Next_eq {q : List pt} (h : 0 < q.length) :
    PriorityQueue.Next q =
      ((pq.Swap q 0 (q.length - 1))[q.length - 1]?,
        (goheap.down (pq.Swap q 0 (q.length - 1)) 0
          (q.length - 1)).take (q.length - 1)) := by
  rw [PriorityQueue.Next, if_neg (by omega)]
  have hX : (goheap.down (pq.Swap q 0 (q.length - 1)) 0
      (q.length - 1)).length = q.length := by
    rw [goheap.down, goheap.downF_length, pq.length_Swap]
  show pq.Pop (goheap.down (pq.Swap q 0 (q.length - 1)) 0 (q.length - 1)) = _
  rw [pq.Pop, hX]
  refine Prod.ext ?_ rfl
  show (goheap.down (pq.Swap q 0 (q.length - 1)) 0
      (q.length - 1))[q.length - 1]? = _
  rw [goheap.down, goheap.downF_getElem?_high _ _ _ _ _ (le_refl _)]

theorem PriorityQueue.Next_fst_some {q : List pt} (h : 0 < q.length) :
    (PriorityQueue.Next q).1 = q[0]? := by
  rw [PriorityQueue.Next_eq h]
  exact pq.getElem?_Swap_snd h (by omega)

/-- C7 helper: `Next` returns nil exactly on the empty heap. -/
theorem PriorityQueue.Next_none_iff (q : List pt) :
    (PriorityQueue.Next q).1 = none ↔ q = [] := by
  by_cases hq : q = []
  · subst hq; simp [PriorityQueue.Next]
  · have hlen : 0 < q.length := List.length_pos.mpr hq
    rw [PriorityQueue.Next_fst_some hlen, List.getElem?_eq_getElem hlen]
    simp [hq]

theorem PriorityQueue.Next_isHeap {q : List pt} (h : IsHeap q) :
    IsHeap (PriorityQueue.Next q).2 := by
  by_cases hq : q = []
  · subst hq
    intro k hk hk0
    simp [PriorityQueue.Next] at hk
  · have hlen : 0 < q.length := List.length_pos.mpr hq
    rw [PriorityQueue.Next_eq hlen]
    intro k hk hk0
    rw [List.length_take] at hk
    have hkn : k < q.length - 1 := by omega
    have hbelow : IsHeapBelow (goheap.down (pq.Swap q 0 (q.length - 1)) 0
        (q.length - 1)) (q.length - 1) := by
      rw [goheap.down]
      apply goheap.downF_isHeapBelow _ _ _ _
        (by rw [pq.length_Swap]; omega) (by omega)
      constructor
      · intro m hm hm0 hpm
        rw [priAt_Swap_other _ _ hpm (by omega),
          priAt_Swap_other _ _ (by omega) (by omega)]
        exact h m (by omega) hm0
      · intro h00
        omega
    show priAt (List.take (q.length - 1) _) ((k - 1) / 2) ≥
      priAt (List.take (q.length - 1) _) k
    rw [priAt_take (by omega), priAt_take hkn]
    exact hbelow k hkn hk0

theorem PriorityQueue.Next_bound {q : List pt} (h : IsHeap q)
    (hlen : 0 < q.length) :
    ∀ k, k < q.length - 1 →
      priAt (PriorityQueue.Next q).2 k ≤ priAt q 0 := by
  intro k hk
  rw [PriorityQueue.Next_eq hlen]
  show priAt (List.take (q.length - 1) _) k ≤ priAt q 0
  rw [priAt_take hk, goheap.down]
  refine goheap.downF_bound _ _ _ _ _ ?_ k hk
  intro m hm
  rcases Nat.eq_zero_or_pos m with hm0 | hm0
  · subst hm0
    rw [priAt_Swap_fst hlen (by omega)]
    exact h.root_max (q.length - 1) (by omega)
  · rw [priAt_Swap_other _ _ (by omega) (by omega)]
    exact h.root_max m (by omega)

theorem PriorityQueue.Next_snd_length {q : List pt} (hlen : 0 < q.length) :
    (PriorityQueue.Next q).2.length = q.length - 1 := by
  rw [PriorityQueue.Next_eq hlen]
  show (List.take (q.length - 1) _).length = q.length - 1
  rw [List.length_take, goheap.down, goheap.downF_length, pq.length_Swap]
  omega

theorem drainF_nil : ∀ fuel, drainF fuel ([] : List pt) = [] := by
  intro fuel
  cases fuel <;> rfl

theorem drainF_chain :
    ∀ fuel q, IsHeap q →
      List.Chain' (fun a b : pt => b.p ≤ a.p) (drainF fuel q) ∧
        ∀ x ∈ drainF fuel q, x.p ≤ priAt q 0 := by
  intro fuel
  induction fuel with
  | zero =>
    intro q h
    exact ⟨List.chain'_nil, by intro x hx; simp [drainF] at hx⟩
  | succ f ih =>
    intro q h
    by_cases hq : q = []
    · subst hq
      rw [drainF_nil]
      exact ⟨List.chain'_nil, by intro x hx; simp at hx⟩
    · have hlen : 0 < q.length := List.length_pos.mpr hq
      have hfst : (PriorityQueue.Next q).1 = some q[0] := by
        rw [PriorityQueue.Next_fst_some hlen]
        exact List.getElem?_eq_getElem hlen
      have hroot : (q[0] : pt).p = priAt q 0 := by
        rw [priAt, List.getElem?_eq_getElem hlen]
      have hnext : PriorityQueue.Next q =
          (some q[0], (PriorityQueue.Next q).2) := by
        have h0 : PriorityQueue.Next q =
            ((PriorityQueue.Next q).1, (PriorityQueue.Next q).2) := rfl
        rw [h0, hfst]
      have hd : drainF (f + 1) q =
          q[0] :: drainF f (PriorityQueue.Next q).2 := by
        rw [drainF, hnext]
      have hheap' := PriorityQueue.Next_isHeap h
      obtain ⟨hch, hmem⟩ := ih _ hheap'
      have hbd : ∀ y ∈ drainF f (PriorityQueue.Next q).2,
          y.p ≤ (q[0] : pt).p := by
        intro y hy
        by_cases hsnd : (PriorityQueue.Next q).2 = []
        · rw [hsnd, drainF_nil] at hy
          simp at hy
        · have h0 : 0 < (PriorityQueue.Next q).2.length :=
            List.length_pos.mpr hsnd
          have h1 := hmem y hy
          have h2 : priAt (PriorityQueue.Next q).2 0 ≤ priAt q 0 := by
            refine PriorityQueue.Next_bound h hlen 0 ?_
            rw [PriorityQueue.Next_snd_length hlen] at h0
            omega
          rw [hroot]
          linarith
      rw [hd]
      constructor
      · rw [List.chain'_cons']
        refine ⟨?_, hch⟩
        intro y hy
        exact hbd y (List.mem_of_mem_head? hy)
      · intro y hy
        rcases List.mem_cons.mp hy with hy | hy
        · subst hy; rw [hroot]
        · have := hbd y hy
          rw [hroot] at this
          exact this

theorem PriorityQueue.Add_isHeap {q : List pt} (h : IsHeap q) (t : GoTask) :
    IsHeap (PriorityQueue.Add q t) := by
  cases t with
  | plain tk => exact goheap.Push_isHeap q _ h
  | withPriority p tk => exact goheap.Push_isHeap q _ h

theorem foldl_Add_isHeap (ts : List GoTask) :
    ∀ q, IsHeap q → IsHeap (ts.foldl PriorityQueue.Add q) := by
  induction ts with
  | nil => intro q h; exact h
  | cons t ts ih =>
    intro q h
    exact ih _ (PriorityQueue.Add_isHeap h t)

theorem IsHeap_nil : IsHeap NewPriorityQueue := by
  intro k hk hk0
  simp [NewPriorityQueue] at hk

theorem foldl_applyOp_isHeap (ops : List QOp) :
    ∀ q, IsHeap q → IsHeap (ops.foldl applyOp q) := by
  induction ops with
  | nil => intro q h; exact h
  | cons op ops ih =>
    intro q h
    refine ih _ ?_
    cases op with
    | add t => exact PriorityQueue.Add_isHeap h t
    | next => exact PriorityQueue.Next_isHeap h

/-- C2: draining any sequence of adds by repeated `Next` yields the
tasks in non-increasing priority order; in particular adding priorities
5, 10, 1 and calling `Next` three times yields the priority-10, then
priority-5, then priority-1 task. -/
theorem C2_drain_non_increasing :
    (∀ ts : List GoTask,
      List.Chain' (fun a b : pt => b.p ≤ a.p)
        (drain (ts.foldl PriorityQueue.Add NewPriorityQueue))) ∧
    drain (PriorityQueue.Add (PriorityQueue.Add
      (PriorityQueue.Add NewPriorityQueue (.withPriority 5 ⟨"a"⟩))
      (.withPriority 10 ⟨"b"⟩)) (.withPriority 1 ⟨"c"⟩)) =
      [⟨10, ⟨"b"⟩⟩, ⟨5, ⟨"a"⟩⟩, ⟨1, ⟨"c"⟩⟩] := by
  constructor
  · intro ts
    exact (drainF_chain _ _ (foldl_Add_isHeap ts _ IsHeap_nil)).1
  · decide

/-- C4: the binary max-heap property holds on the backing array after
every `Next` and every `Add`, for every sequence of operations starting
from a newly constructed queue. -/
theorem C4_heap_invariant (ops : List QOp) : IsHeap (runOps ops) :=
  foldl_applyOp_isHeap ops NewPriorityQueue IsHeap_nil

theorem C4_witness :
    IsHeap (runOps [QOp.add (.withPriority 5 ⟨"a"⟩),
      QOp.add (.withPriority 10 ⟨"b"⟩), QOp.next]) :=
  C4_heap_invariant [QOp.add (.withPriority 5 ⟨"a"⟩),
    QOp.add (.withPriority 10 ⟨"b"⟩), QOp.next]

/-! ### `Add` pushes the right element: permutation facts -/

theorem count_set_toList (x b : pt) :
    ∀ (l : List pt) (i : Nat), i < l.length →
      (l.set i b).count x + (l[i]?.toList).count x =
        l.count x + [b].count x := by
  intro l
  induction l with
  | nil => intro i hi; simp at hi
  | cons c l ih =>
    intro i hi
    cases i with
    | zero =>
      simp only [List.set_cons_zero, List.getElem?_cons_zero, Option.toList_some]
      simp only [List.count_cons, List.count_nil]
      split_ifs <;> omega
    | succ i =>
      simp only [List.set_cons_succ, List.getElem?_cons_succ]
      have h0 := ih i (by simpa using hi)
      simp only [List.count_cons, List.count_nil] at h0 ⊢
      split_ifs at h0 ⊢ <;> omega

theorem pq.Swap_perm (q : List pt) (i j : Nat) : (pq.Swap q i j).Perm q := by
  by_cases hi : i < q.length
  · by_cases hj : j < q.length
    · have hqi : q[i]? = some q[i] := List.getElem?_eq_getElem hi
      have hqj : q[j]? = some q[j] := List.getElem?_eq_getElem hj
      rw [pq.Swap, hqi, hqj]
      refine List.perm_iff_count.mpr fun x => ?_
      have h1 := count_set_toList x q[i] (q.set i q[j]) j (by simpa using hj)
      have h2 := count_set_toList x q[j] q i hi
      by_cases hij : i = j
      · subst hij
        rw [List.getElem?_set_self (by simpa using hi)] at h1
        rw [hqi] at h2
        simp only [Option.toList_some] at h1 h2
        simp only [List.count_cons, List.count_nil] at h1 h2 ⊢
        split_ifs at h1 h2 <;> omega
      · rw [List.getElem?_set_ne hij, hqj] at h1
        rw [hqi] at h2
        simp only [Option.toList_some] at h1 h2
        simp only [List.count_cons, List.count_nil] at h1 h2 ⊢
        split_ifs at h1 h2 <;> omega
    · rw [pq.Swap_eq_self (Or.inr (by omega))]
  · rw [pq.Swap_eq_self (Or.inl (by omega))]

theorem goheap.upF_perm :
    ∀ fuel q j, (goheap.upF fuel q j).Perm q := by
  intro fuel
  induction fuel with
  | zero => intro q j; exact List.Perm.refl _
  | succ f ih =>
    intro q j
    rw [goheap.upF]
    by_cases hc : (j - 1) / 2 = j ∨ pq.Less q j ((j - 1) / 2) = false
    · rw [if_pos hc]
    · rw [if_neg hc]
      exact (ih _ _).trans (pq.Swap_perm q _ j)

theorem goheap.Push_perm (q : List pt) (x : pt) :
    (goheap.Push q x).Perm (x :: q) := by
  rw [goheap.Push, goheap.up]
  exact (goheap.upF_perm _ _ _).trans (List.perm_append_singleton x q)

/-- C3: `Add` on a task without a priority wraps it via
`NewPriorityTask(t, 0)` before heap-pushing, so the queue gains exactly
the element `⟨0, t⟩`; a task that already carries a priority is pushed
unchanged with its own priority. -/
theorem C3_add_wraps_bare_tasks :
    (∀ (q : List pt) (tk : Task),
      PriorityQueue.Add q (.plain tk) = goheap.Push q (NewPriorityTask tk 0) ∧
      (PriorityQueue.Add q (.plain tk)).Perm (⟨0, tk⟩ :: q)) ∧
    (∀ (q : List pt) (p : Int) (tk : Task),
      PriorityQueue.Add q (.withPriority p tk) = goheap.Push q ⟨p, tk⟩ ∧
      (PriorityQueue.Add q (.withPriority p tk)).Perm (⟨p, tk⟩ :: q)) := by
  constructor
  · intro q tk
    exact ⟨rfl, goheap.Push_perm q _⟩
  · intro q p tk
    exact ⟨rfl, goheap.Push_perm q _⟩

/-! ### ManagedSource: conservation and shutdown facts -/

theorem addedTasks_append (es : List MEvent) (e : MEvent) :
    addedTasks (es ++ [e]) = addedTasks es + eventAdded e := by
  simp [addedTasks]

theorem deliveredTasks_append (es : List MEvent) (e : MEvent) :
    deliveredTasks (es ++ [e]) = deliveredTasks es + eventDelivered e := by
  simp [deliveredTasks]

theorem MStep.stop_is_cancel {σ : Type} {S : Sourcer σ} {st : MState σ}
    {e : MEvent} {st' : MState σ} (h : MStep S st e st')
    (hstop : st'.running = false) : e = .cancel := by
  cases h <;> simp_all

/-- State invariant along any run of the managed-source goroutine:
the Sourcer's contents plus the pending-delivery slot plus everything
already delivered equals the initial contents plus everything added,
the WaitGroup counter is 1 while running, and a stopped thread has an
empty slot and a released barrier. -/
theorem mreach_state_inv {σ : Type} (S : Sourcer σ)
    (tasks : σ → Multiset Task)
    (hsome : ∀ s t s', S.next s = (some t, s') → tasks s = {t} + tasks s')
    (hnone : ∀ s s', S.next s = (none, s') → tasks s' = tasks s)
    (hadd : ∀ s t, tasks (S.add s t) = {t} + tasks s)
    (s0 : σ) (w0 : Bool) (es : List MEvent) (st : MState σ)
    (h : MReach S (MInit s0 w0) es st) :
    (tasks st.s + slotM st.top + deliveredTasks es =
      tasks s0 + addedTasks es) ∧
    (st.running = true → st.wg = 1) ∧
    (st.running = false → st.top = none ∧ st.wg = 0) := by
  induction h with
  | refl =>
    refine ⟨?_, fun _ => rfl, ?_⟩
    · simp [MInit, slotM, addedTasks, deliveredTasks]
    · intro hf; simp [MInit] at hf
  | step es' st₁ e st₂ hreach hstep ih =>
    obtain ⟨ihacc, ihr1, ihr0⟩ := ih
    rw [addedTasks_append, deliveredTasks_append]
    cases hstep with
    | refill_empty t? s' hr hpc htop hnext =>
      refine ⟨?_, ?_, ?_⟩
      · cases t? with
        | none =>
          have h1 := hnone _ _ hnext
          dsimp only
          simp only [eventAdded, eventDelivered, add_zero]
          rw [← ihacc, htop, h1]
        | some t =>
          have h1 := hsome _ _ _ hnext
          dsimp only
          simp only [eventAdded, eventDelivered, add_zero]
          rw [← ihacc, htop, h1]
          simp only [slotM, add_zero]
          abel
      · intro; exact ihr1 hr
      · intro hf; dsimp only at hf; rw [hf] at hr; cases hr
    | refill_keep t hr hpc htop =>
      refine ⟨?_, ?_, ?_⟩
      · dsimp only
        simp only [eventAdded, eventDelivered, add_zero]
        exact ihacc
      · intro; exact ihr1 hr
      · intro hf; dsimp only at hf; rw [hf] at hr; cases hr
    | wakeSignal hr hpc hw =>
      refine ⟨?_, ?_, ?_⟩
      · dsimp only
        simp only [eventAdded, eventDelivered, add_zero]
        exact ihacc
      · intro; exact ihr1 hr
      · intro hf; dsimp only at hf; rw [hf] at hr; cases hr
    | wakeClosed hr hpc hw =>
      refine ⟨?_, ?_, ?_⟩
      · dsimp only
        simp only [eventAdded, eventDelivered, add_zero]
        exact ihacc
      · intro; exact ihr1 hr
      · intro hf; dsimp only at hf; rw [hf] at hr; cases hr
    | addRecv t hr hpc ha =>
      refine ⟨?_, ?_, ?_⟩
      · dsimp only
        simp only [eventAdded, eventDelivered, add_zero]
        rw [hadd, ← add_assoc, ← ihacc]
        abel
      · intro; exact ihr1 hr
      · intro hf; dsimp only at hf; rw [hf] at hr; cases hr
    | addNil hr hpc ha =>
      refine ⟨?_, ?_, ?_⟩
      · dsimp only
        simp only [eventAdded, eventDelivered, add_zero]
        exact ihacc
      · intro; exact ihr1 hr
      · intro hf; dsimp only at hf; rw [hf] at hr; cases hr
    | addClosed hr hpc ha =>
      refine ⟨?_, ?_, ?_⟩
      · dsimp only
        simp only [eventAdded, eventDelivered, add_zero]
        exact ihacc
      · intro; exact ihr1 hr
      · intro hf; dsimp only at hf; rw [hf] at hr; cases hr
    | cancel hr hpc =>
      refine ⟨?_, ?_, ?_⟩
      · dsimp only
        simp only [eventAdded, eventDelivered, add_zero]
        cases htop : st₁.top with
        | none =>
          dsimp only
          rw [htop] at ihacc
          exact ihacc
        | some t =>
          dsimp only
          rw [hadd]
          rw [htop] at ihacc
          simp only [slotM, add_zero] at ihacc ⊢
          rw [← ihacc]
          abel
      · intro hf; dsimp only at hf; cases hf
      · intro hf
        refine ⟨rfl, ?_⟩
        dsimp only
        rw [ihr1 hr]
    | deliver t hr hpc htop =>
      refine ⟨?_, ?_, ?_⟩
      · dsimp only
        simp only [eventAdded, eventDelivered, slotM, add_zero]
        rw [← ihacc, htop]
        simp only [slotM]
        abel
      · intro; exact ihr1 hr
      · intro hf; dsimp only at hf; rw [hf] at hr; cases hr

/-- C1: on cancellation with an occupied pending-delivery slot, the
goroutine returns the held task to the Sourcer via `Add` and only then
releases the shutdown barrier and terminates; along every reachable
trace, sourcer contents + pending slot + delivered tasks account for
exactly the initial contents plus all submitted tasks, and a stopped
thread holds nothing — no submitted task is silently dropped. -/
theorem C1_cancel_requeues_held_task {σ : Type} (S : Sourcer σ)
    (tasks : σ → Multiset Task)
    (hsome : ∀ s t s', S.next s = (some t, s') → tasks s = {t} + tasks s')
    (hnone : ∀ s s', S.next s = (none, s') → tasks s' = tasks s)
    (hadd : ∀ s t, tasks (S.add s t) = {t} + tasks s)
    (s0 : σ) (w0 : Bool) (es : List MEvent) (st : MState σ)
    (h : MReach S (MInit s0 w0) es st) :
    (tasks st.s + slotM st.top + deliveredTasks es =
      tasks s0 + addedTasks es) ∧
    (st.running = false → st.top = none ∧ st.wg = 0) ∧
    (∀ t st', st.top = some t → MStep S st .cancel st' →
      st'.s = S.add st.s t ∧ st'.top = none ∧ st'.running = false ∧
        st'.wg = 0) := by
  obtain ⟨hacc, hr1, hr0⟩ :=
    mreach_state_inv S tasks hsome hnone hadd s0 w0 es st h
  refine ⟨hacc, hr0, ?_⟩
  intro t st' htop hstep
  cases hstep with
  | cancel hr hpc =>
    refine ⟨?_, rfl, rfl, ?_⟩
    · dsimp only
      rw [htop]
    · dsimp only
      rw [hr1 hr]

theorem C1_witness :
    (listTasks (MInit (Task.mk "w" :: []) false).s +
        slotM (MInit (Task.mk "w" :: []) false).top + deliveredTasks [] =
      listTasks (Task.mk "w" :: []) + addedTasks []) ∧
    ((MInit (Task.mk "w" :: []) false).running = false →
      (MInit (Task.mk "w" :: []) false).top = none ∧
      (MInit (Task.mk "w" :: []) false).wg = 0) ∧
    (∀ t st', (MInit (Task.mk "w" :: []) false).top = some t →
      MStep listSourcer (MInit (Task.mk "w" :: []) false) .cancel st' →
      st'.s = listSourcer.add (MInit (Task.mk "w" :: []) false).s t ∧
        st'.top = none ∧ st'.running = false ∧ st'.wg = 0) :=
  C1_cancel_requeues_held_task listSourcer listTasks
    (by
      intro s t s' hn
      cases s with
      | nil => simp [listSourcer] at hn
      | cons a as =>
        simp [listSourcer, Prod.ext_iff] at hn
        obtain ⟨h1, h2⟩ := hn
        subst h1
        subst h2
        simp [listTasks])
    (by
      intro s s' hn
      cases s with
      | nil =>
        simp [listSourcer, Prod.ext_iff] at hn
        subst hn
        rfl
      | cons a as => simp [listSourcer] at hn)
    (by intro s t; simp [listTasks, listSourcer])
    (Task.mk "w" :: []) false [] _ (MReach.refl _)

/-- C7: source exhaustion is not an error — `PriorityQueue.Next`
returns nil exactly when the heap is empty, and a managed source whose
slot is empty offers nothing on the outbound point (no `deliver` step
exists) while the empty `Next` result is consumed by a normal `refill`
step that leaves the thread running. -/
theorem C7_exhaustion_not_error :
    (∀ q : List pt, (PriorityQueue.Next q).1 = none ↔ q = []) ∧
    (∀ (σ : Type) (S : Sourcer σ) (st st' : MState σ) (t : Task),
      st.top = none → ¬ MStep S st (.deliver t) st') ∧
    (∀ (σ : Type) (S : Sourcer σ) (st : MState σ) (s' : σ),
      st.running = true → st.pc = .head → st.top = none →
      S.next st.s = (none, s') →
      ∃ st', MStep S st .refill st' ∧ st'.running = true ∧
        st'.top = none ∧ st'.s = s') := by
  refine ⟨PriorityQueue.Next_none_iff, ?_, ?_⟩
  · intro σ S st st' t htop h
    cases h
    rename_i htop'
    rw [htop] at htop'
    cases htop'
  · intro σ S st s' hr hpc htop hnext
    exact ⟨_, MStep.refill_empty st none s' hr hpc htop hnext, hr, rfl, rfl⟩

theorem C7_witness : (PriorityQueue.Next NewPriorityQueue).1 = none :=
  (C7_exhaustion_not_error.1 NewPriorityQueue).mpr rfl

/-- C9: closing the wake-up or add point individually only disables
that branch — the step leaves the thread running and merely clears the
corresponding flag, a cleared flag stays cleared and its branch can
never fire again — and in every reachable state only the cancellation
signal terminates the thread. -/
theorem C9_only_cancel_terminates :
    (∀ (σ : Type) (S : Sourcer σ) (st : MState σ) (e : MEvent)
        (st' : MState σ), MStep S st e st' → st'.running = false →
        e = .cancel) ∧
    (∀ (σ : Type) (S : Sourcer σ) (s0 : σ) (w0 : Bool) (es : List MEvent)
        (st : MState σ), MReach S (MInit s0 w0) es st →
        st.running = false → MEvent.cancel ∈ es) ∧
    (∀ (σ : Type) (S : Sourcer σ) (st st' : MState σ),
      MStep S st .wakeClosed st' → st'.running = true ∧ st'.wake = false ∧
        st'.s = st.s ∧ st'.top = st.top ∧ st'.addOpen = st.addOpen) ∧
    (∀ (σ : Type) (S : Sourcer σ) (st st' : MState σ),
      MStep S st .addClosed st' → st'.running = true ∧ st'.addOpen = false ∧
        st'.s = st.s ∧ st'.top = st.top ∧ st'.wake = st.wake) ∧
    (∀ (σ : Type) (S : Sourcer σ) (st : MState σ) (e : MEvent)
        (st' : MState σ), MStep S st e st' → st.wake = false →
        st'.wake = false ∧ e ≠ .wakeSignal ∧ e ≠ .wakeClosed) ∧
    (∀ (σ : Type) (S : Sourcer σ) (st : MState σ) (e : MEvent)
        (st' : MState σ), MStep S st e st' → st.addOpen = false →
        st'.addOpen = false ∧ (∀ t, e ≠ .addRecv t) ∧ e ≠ .addNil ∧
          e ≠ .addClosed) := by
  refine ⟨?_, ?_, ?_, ?_, ?_, ?_⟩
  · intro σ S st e st' h
    exact h.stop_is_cancel
  · intro σ S s0 w0 es st h
    induction h with
    | refl => intro hstop; simp [MInit] at hstop
    | step es' st₁ e st₂ hreach hstep ih =>
      intro hstop
      cases hstep with
      | cancel hr hpc => simp
      | refill_empty t? s' hr hpc htop hnext => simp_all
      | refill_keep t hr hpc htop => simp_all
      | wakeSignal hr hpc hw => simp_all
      | wakeClosed hr hpc hw => simp_all
      | addRecv t hr hpc ha => simp_all
      | addNil hr hpc ha => simp_all
      | addClosed hr hpc ha => simp_all
      | deliver t hr hpc htop => simp_all
  · intro σ S st st' h
    cases h with
    | wakeClosed hr hpc hw => exact ⟨hr, rfl, rfl, rfl, rfl⟩
  · intro σ S st st' h
    cases h with
    | addClosed hr hpc ha => exact ⟨hr, rfl, rfl, rfl, rfl⟩
  · intro σ S st e st' h hw
    cases h <;> simp_all
  · intro σ S st e st' h ha
    cases h <;> simp_all

theorem C9_witness :
    msB.running = true ∧ msB.wake = false ∧ msB.s = msA.s ∧
      msB.top = msA.top ∧ msB.addOpen = msA.addOpen :=
  C9_only_cancel_terminates.2.2.1 (List Task) listSourcer msA msB
    (MStep.wakeClosed msA rfl rfl rfl)

/-- C10: a nil task received on the add point — the explicit nil send
and the zero value delivered on closure — is ignored: the step leaves
the Sourcer state and the pending-delivery slot unchanged, and
`Sourcer.Add` is only ever invoked by a non-nil `addRecv` step, the
cancellation requeue, or the loop-head refill. -/
theorem C10_nil_task_ignored :
    (∀ (σ : Type) (S : Sourcer σ) (st st' : MState σ),
      MStep S st .addNil st' → st'.s = st.s ∧ st'.top = st.top) ∧
    (∀ (σ : Type) (S : Sourcer σ) (st st' : MState σ),
      MStep S st .addClosed st' → st'.s = st.s ∧ st'.top = st.top) ∧
    (∀ (σ : Type) (S : Sourcer σ) (st : MState σ) (e : MEvent)
        (st' : MState σ), MStep S st e st' → st'.s ≠ st.s →
        (∃ t, e = .addRecv t) ∨ e = .cancel ∨ e = .refill) := by
  refine ⟨?_, ?_, ?_⟩
  · intro σ S st st' h
    cases h with
    | addNil hr hpc ha => exact ⟨rfl, rfl⟩
  · intro σ S st st' h
    cases h with
    | addClosed hr hpc ha => exact ⟨rfl, rfl⟩
  · intro σ S st e st' h hne
    cases h with
    | refill_empty t? s' hr hpc htop hnext => right; right; rfl
    | refill_keep t hr hpc htop => exact absurd rfl hne
    | wakeSignal hr hpc hw => exact absurd rfl hne
    | wakeClosed hr hpc hw => exact absurd rfl hne
    | addRecv t hr hpc ha => exact Or.inl ⟨t, rfl⟩
    | addNil hr hpc ha => exact absurd rfl hne
    | addClosed hr hpc ha => exact absurd rfl hne
    | cancel hr hpc => exact Or.inr (Or.inl rfl)
    | deliver t hr hpc htop => exact absurd rfl hne

theorem C10_witness : msB.s = msC.s ∧ msB.top = msC.top :=
  C10_nil_task_ignored.1 (List Task) listSourcer msC msB
    (MStep.addNil msC rfl rfl rfl)

/-! ### GoPool: worker loop and the `wg.Add` ordering bug -/

theorem getElem?_some_lt {α : Type} {l : List α} {i : Nat} {w : α}
    (h : l[i]? = some w) : i < l.length := by
  by_contra hc
  rw [List.getElem?_eq_none (by omega)] at h
  cases h

/-- C5: because `New` runs `p.wg.Add(goroutines)` only after spawning
the workers, an interleaving exists in which a worker observes the
already-fired cancellation signal and calls `wg.Done()` first, driving
the `sync.WaitGroup` counter negative — a runtime panic, after which
the pool can make no step at all (so `Wait` never returns and no task
is ever completed). -/
theorem C5_wgAdd_after_spawn_panics :
    PReach (PInit 1) [.fireCancel, .observeCancel 0] pBad ∧
      pBad.panicked = true ∧ pBad.waitReturned = false ∧
      pBad.runDone = [] ∧ ∀ e st', ¬ PStep pBad e st' := by
  refine ⟨?_, rfl, rfl, rfl, ?_⟩
  · exact PReach.step _ _ _ _ _
      (PReach.step _ _ _ _ _ (PReach.refl _) (PStep.fireCancel _ rfl rfl))
      (PStep.observeCancel _ 0 rfl rfl rfl)
  · intro e st' h
    cases h <;> simp_all [pBad]

/-- C6 (counterexample): with the cancellation signal already fired and
a task ready on the inbound point, the worker's `select` may still
commit the receive branch — the reachable state `pRace` admits a
`recv` step, so a worker can accept a new task after cancellation. -/
theorem C6_counterexample :
    PReach (PInit 1) [.wgAdd, .fireCancel, .send ⟨"t"⟩] pRace ∧
      pRace.cancelled = true ∧
      PStep pRace (.recv 0 ⟨"t"⟩)
        { pRace with workers := [.running ⟨"t"⟩], pending := [] } := by
  refine ⟨?_, rfl, ?_⟩
  · exact PReach.step _ _ _ _ _
      (PReach.step _ _ _ _ _
        (PReach.step _ _ _ _ _ (PReach.refl _) (PStep.wgAdd _ rfl rfl))
        (PStep.fireCancel _ rfl rfl))
      (PStep.send _ _ rfl rfl)
  · exact PStep.recv _ 0 _ [] rfl rfl rfl

/-- C6 (amended): a worker that observes the cancellation signal
decrements the barrier and terminates having taken no task; a
terminated worker never accepts any further task; and a task already
running may always run to completion — but observing cancellation is
one branch of a `select`, so a worker may instead accept a ready task
even after the signal has fired. -/
theorem C6_cancel_branch_behavior :
    (∀ (st : PState) (i : Nat) (st' : PState),
      PStep st (.observeCancel i) st' →
      st.cancelled = true ∧ st'.workers[i]? = some .done ∧
        st'.wg = st.wg - 1 ∧ st'.pending = st.pending ∧
        st'.runDone = st.runDone) ∧
    (∀ (st : PState) (i : Nat) (e : PEvent) (st' : PState),
      st.workers[i]? = some .done → PStep st e st' →
      st'.workers[i]? = some .done ∧ ∀ t, e ≠ .recv i t) ∧
    (∀ (st : PState) (i : Nat) (t : Task), st.panicked = false →
      st.workers[i]? = some (.running t) →
      ∃ st', PStep st (.finish i t) st' ∧
        st'.runDone = st.runDone ++ [t]) := by
  refine ⟨?_, ?_, ?_⟩
  · intro st i st' h
    cases h with
    | observeCancel i hp hidle hc =>
      have hlen : i < st.workers.length := getElem?_some_lt hidle
      refine ⟨hc, ?_, rfl, rfl, rfl⟩
      dsimp only
      rw [List.getElem?_set_self hlen]
  · intro st i e st' hdone h
    cases h with
    | wgAdd hp hw => exact ⟨hdone, by simp⟩
    | fireCancel hp hc => exact ⟨hdone, by simp⟩
    | closeSrc hp hc => exact ⟨hdone, by simp⟩
    | send t hp hc => exact ⟨hdone, by simp⟩
    | recv j t rest hp hidle hpend =>
      have hji : j ≠ i := by
        intro heq
        rw [heq, hdone] at hidle
        cases hidle
      constructor
      · dsimp only
        rw [List.getElem?_set_ne hji]
        exact hdone
      · intro t' hne'
        injection hne' with h1 h2
        exact hji h1
    | finish j t hp hrun =>
      have hji : j ≠ i := by
        intro heq
        rw [heq, hdone] at hrun
        cases hrun
      refine ⟨?_, by simp⟩
      dsimp only
      rw [List.getElem?_set_ne hji]
      exact hdone
    | observeCancel j hp hidle hc =>
      have hji : j ≠ i := by
        intro heq
        rw [heq, hdone] at hidle
        cases hidle
      refine ⟨?_, by simp⟩
      dsimp only
      rw [List.getElem?_set_ne hji]
      exact hdone
    | observeClosed j hp hidle hsrc hpend =>
      have hji : j ≠ i := by
        intro heq
        rw [heq, hdone] at hidle
        cases hidle
      refine ⟨?_, by simp⟩
      dsimp only
      rw [List.getElem?_set_ne hji]
      exact hdone
    | waitCall hp hw hw2 => exact ⟨hdone, by simp⟩
    | waitReturn hp hw hz => exact ⟨hdone, by simp⟩
  · intro st i t hp hrun
    exact ⟨_, PStep.finish st i t hp hrun, rfl⟩

theorem C6_witness :
    pRace.cancelled = true ∧ pRaceStopped.workers[0]? = some .done ∧
      pRaceStopped.wg = pRace.wg - 1 ∧ pRaceStopped.pending = pRace.pending ∧
      pRaceStopped.runDone = pRace.runDone :=
  C6_cancel_branch_behavior.1 pRace 0 pRaceStopped
    (PStep.observeCancel pRace 0 rfl rfl rfl)

/-- C8: a worker that finds the inbound point closed logs the closure,
decrements the barrier and terminates; the step touches nothing but
that worker's status, the barrier and the log — every other worker and
every other observable component is unchanged, and no error value
exists to surface. -/
theorem C8_closed_inbound_point :
    ∀ (st : PState) (i : Nat) (st' : PState),
      PStep st (.observeClosed i) st' →
      st.srcClosed = true ∧ st'.workers[i]? = some .done ∧
        st'.wg = st.wg - 1 ∧ st'.closedLogs = st.closedLogs ++ [i] ∧
        (∀ j, j ≠ i → st'.workers[j]? = st.workers[j]?) ∧
        st'.cancelled = st.cancelled ∧ st'.srcClosed = st.srcClosed ∧
        st'.pending = st.pending ∧ st'.runDone = st.runDone ∧
        st'.waiting = st.waiting ∧ st'.waitReturned = st.waitReturned := by
  intro st i st' h
  cases h with
  | observeClosed i hp hidle hsrc hpend =>
    have hlen : i < st.workers.length := getElem?_some_lt hidle
    refine ⟨hsrc, ?_, rfl, rfl, ?_, rfl, rfl, rfl, rfl, rfl, rfl⟩
    · dsimp only
      rw [List.getElem?_set_self hlen]
    · intro j hj
      dsimp only
      rw [List.getElem?_set_ne (Ne.symm hj)]

theorem C8_witness :
    pClosed.srcClosed = true ∧ pClosedStopped.workers[0]? = some .done ∧
      pClosedStopped.wg = pClosed.wg - 1 ∧
      pClosedStopped.closedLogs = pClosed.closedLogs ++ [0] ∧
      (∀ j, j ≠ 0 → pClosedStopped.workers[j]? = pClosed.workers[j]?) ∧
      pClosedStopped.cancelled = pClosed.cancelled ∧
      pClosedStopped.srcClosed = pClosed.srcClosed ∧
      pClosedStopped.pending = pClosed.pending ∧
      pClosedStopped.runDone = pClosed.runDone ∧
      pClosedStopped.waiting = pClosed.waiting ∧
      pClosedStopped.waitReturned = pClosed.waitReturned :=
  C8_closed_inbound_point pClosed 0 pClosedStopped
    (PStep.observeClosed pClosed 0 rfl rfl rfl rfl)

end gopool
